import Mathlib

/-!
Shallow embedding of the KNN classifier repository (dataset.cpp, KNN.cpp).

Modelling conventions:
* C++ double values are modelled as rationals wherever the code only adds,
  subtracts, multiplies and divides them; sqrt and exp are modelled over
  the reals.
* The variant type of dataset.cpp becomes the inductive DataType; the C++
  accessor get applied to the wrong alternative is undefined behaviour and
  is modelled as a default value (0 for a double read, the empty string
  for a string read); no proved claim depends on that case.
* The column map (an unordered_map from column name to value vector)
  becomes a function from String to lists of values; a missing key reads
  as the empty vector, matching operator[] default construction.
* Thrown C++ exceptions and reached undefined behaviour become the
  explicit outcome type CxxOutcome.
-/

set_option autoImplicit false

namespace Knn

/-- Model of Dataset::DataType, the tagged union variant of a double and
a string from dataset.cpp. -/
inductive DataType where
  | num (v : ℚ)
  | str (s : String)
deriving DecidableEq, Repr

instance : Inhabited DataType := ⟨.num 0⟩

/-- Model of the C++ accessor reading the double alternative (undefined
behaviour on the string alternative, modelled as 0). -/
def asNum : DataType → ℚ
  | .num v => v
  | .str _ => 0

/-- Model of the C++ accessor reading the string alternative (undefined
behaviour on the double alternative, modelled as the empty string). -/
def asStr : DataType → String
  | .num _ => ""
  | .str s => s

/-- Model of holds_alternative applied at the double alternative. -/
def DataType.holdsNum : DataType → Bool
  | .num _ => true
  | .str _ => false

/-- Outcome of running a C++ member function: a normal return, a thrown
exception carrying its message, or reached undefined behaviour. -/
inductive CxxOutcome (α : Type) where
  | ok (a : α)
  | exn (msg : String)
  | ub
deriving DecidableEq, Repr

/-- Whether a CxxOutcome is a normal return. -/
def CxxOutcome.isOk {α : Type} : CxxOutcome α → Bool
  | .ok _ => true
  | _ => false

/-- Model of the Dataset class of dataset.cpp: ordered attribute names
(keys), the per-column numeric flags, the column-major store m, the
designated label, the row counter, and the normalization parameter map
local_parms (keyed by DataType exactly as in the source). -/
structure Dataset where
  keys : List String
  is_num : List Bool
  cols : String → List DataType
  label : String
  size : Nat
  local_parms : DataType → Option DataType

/-- The empty, default-constructed Dataset. -/
def emptyDataset : Dataset := ⟨[], [], fun _ => [], "", 0, fun _ => none⟩

instance : Inhabited Dataset := ⟨emptyDataset⟩

/-- Reading local_parms at a string key: operator[] on a missing key
default-constructs the variant, whose first alternative is double, hence
the default value num 0. -/
def Dataset.parm (d : Dataset) (key : String) : DataType :=
  (d.local_parms (.str key)).getD (.num 0)

/-- Model of Dataset::iterrow on an in-range index: the row assembled
from every column in keys order.  (Out of range the C++ code throws a
character pointer that its own catch clause for std::string cannot
catch; no claim below touches that path.) -/
def Dataset.iterrow (d : Dataset) (i : Nat) : List DataType :=
  d.keys.map fun k => (d.cols k).getD i default

/-- Model of Dataset::get_label, which throws when the label was never
set and otherwise returns it. -/
def Dataset.get_label (d : Dataset) : CxxOutcome String :=
  if d.label.length = 0 then .exn "no label set yet, an empty strin returned.\n"
  else .ok d.label

/-- The label-index scan shared by the distance measure, KNN::predict
and KNN::evaluate: l starts at 0, then becomes the first index whose key
equals the label (via break); it stays 0 when no key matches. -/
def labelIdx (d : Dataset) : Nat :=
  match d.keys.findIdx? (fun k => k = d.label) with
  | some i => i
  | none => 0

/-- One term of the accumulation loop of euclidean_distance_mesure
(KNN.cpp lines 40-52) at column position i, given label position l: the
branch is chosen by the alternative held by the shorter point at i; the
index into the longer point a is i+1 exactly when l is at most i and the
lengths differ; a numeric column contributes the squared difference and
a categorical column contributes 1 when the two strings are EQUAL (the
source compares with ==), 0 otherwise. -/
def edm_term (a b : List DataType) (l i : Nat) : ℚ :=
  let bi := b.getD i default
  let ai := a.getD (if l ≤ i ∧ a.length ≠ b.length then i + 1 else i) default
  if bi.holdsNum then (asNum ai - asNum bi) ^ 2
  else if asStr ai = asStr bi then 1 else 0

/-- The accumulated sum of euclidean_distance_mesure just before the
final square root: after swapping so that a is the longer point, iterate
i over the shorter point and add edm_term. -/
def edm_sum (d : Dataset) (pa pb : List DataType) : ℚ :=
  let a := if pa.length < pb.length then pb else pa
  let b := if pa.length < pb.length then pa else pb
  ((List.range b.length).map (edm_term a b (labelIdx d))).sum

/-- The default proximity measure euclidean_distance_mesure of KNN.cpp:
the square root of the accumulated sum. -/
noncomputable def euclidean_distance_mesure (d : Dataset) (pa pb : List DataType) : ℝ :=
  Real.sqrt (edm_sum d pa pb)

/-- Insertion into local_parms: unordered_map::insert keeps an already
present value and stores the new one only when the key is absent. -/
def parmInsert (p : DataType → Option DataType) (key v : DataType) :
    DataType → Option DataType :=
  fun s => if s = key then some ((p key).getD v) else p s

/-- Smallest element of a rational list, as min_element computes it (the
value 0 stands for the undefined dereference on an empty range). -/
def listMin : List ℚ → ℚ
  | [] => 0
  | x :: xs => xs.foldl min x

/-- Largest element of a rational list, as max_element computes it (the
value 0 stands for the undefined dereference on an empty range). -/
def listMax : List ℚ → ℚ
  | [] => 0
  | x :: xs => xs.foldl max x

/-- The column loop of the default normalization function of dataset.cpp
(lines 56-79), iterating over the key/flag pairs: a numeric column has
its minimum and maximum computed, recorded under the keys obtained by
appending " nmax" and " nmin" to the column name (in that insertion
order), and every value rewritten to (v - min) / (max - min); a
categorical column is skipped. -/
def normLoop : List (String × Bool) → (String → List DataType) →
    (DataType → Option DataType) →
    (String → List DataType) × (DataType → Option DataType)
  | [], c, p => (c, p)
  | (k, bnum) :: ks, c, p =>
    if bnum then
      let mn := listMin ((c k).map asNum)
      let mx := listMax ((c k).map asNum)
      let p1 := parmInsert p (.str (k ++ " nmax")) (.num mx)
      let p2 := parmInsert p1 (.str (k ++ " nmin")) (.num mn)
      let c1 := fun s => if s = k then
          (c k).map (fun v => .num ((asNum v - mn) / (mx - mn))) else c s
      normLoop ks c1 p2
    else normLoop ks c p

/-- Model of Dataset::normalize with the default normalization
function. -/
def Dataset.normalize (d : Dataset) : Dataset :=
  let r := normLoop (d.keys.zip d.is_num) d.cols d.local_parms
  ⟨d.keys, d.is_num, r.1, d.label, d.size, r.2⟩

/-- Model of Dataset::renormalize with the default renormalization
function (dataset.cpp lines 80-90): every entry of the point sitting at
a numeric position is rewritten to (v - nmin) / (nmax - nmin) using the
stored parameters of the column at the same position. -/
def Dataset.renormalize (d : Dataset) (p : List DataType) : List DataType :=
  (List.range p.length).map fun i =>
    if d.is_num.getD i false then
      let k := d.keys.getD i ""
      .num ((asNum (p.getD i default) - asNum (d.parm (k ++ " nmin"))) /
        (asNum (d.parm (k ++ " nmax")) - asNum (d.parm (k ++ " nmin"))))
    else p.getD i default

/-- The column loop of Dataset::push_back, appending entry j of the row
to the column named by key j. -/
def pushLoop : List String → Nat → List DataType →
    (String → List DataType) → (String → List DataType)
  | [], _, _, c => c
  | k :: ks, j, row, c =>
    pushLoop ks (j + 1) row (fun s => if s = k then c s ++ [row.getD j default] else c s)

/-- Model of Dataset::push_back: every column receives the row entry at
its own position and the row counter grows by one. -/
def Dataset.push_back (d : Dataset) (row : List DataType) : Dataset :=
  ⟨d.keys, d.is_num, pushLoop d.keys 0 row d.cols, d.label, d.size + 1, d.local_parms⟩

/-- Swap-with-back followed by pop_back on one column vector, at swap
position j (the source uses the column loop counter as the swap
position). -/
def popSwapAt (l : List DataType) (j : Nat) : List DataType :=
  (l.set j ((l.getLast?).getD default)).dropLast

/-- The column loop of Dataset::remove: column number j has its entry at
position j swapped with the last entry and then popped. -/
def removeLoop : List String → Nat → (String → List DataType) → (String → List DataType)
  | [], _, c => c
  | k :: ks, j, c => removeLoop ks (j + 1) (fun s => if s = k then popSwapAt (c s) j else c s)

/-- Model of Dataset::remove: the bounds guard throws a range_error;
otherwise every column loses one entry.  The row counter field is left
untouched, exactly as in the source. -/
def Dataset.remove (d : Dataset) (i : ℤ) : CxxOutcome Dataset :=
  if i > (d.size : ℤ) ∨ i < 0 then .exn "index out of range.\n"
  else .ok ⟨d.keys, d.is_num, removeLoop d.keys 0 d.cols, d.label, d.size, d.local_parms⟩

/-- Repeated push_back of a list of rows. -/
def pushRows (t : Dataset) (rows : List (List DataType)) : Dataset :=
  rows.foldl Dataset.push_back t

/-- Model of Dataset::split on freshly default-constructed output
tables: the guard rejects a fraction outside the unit interval; both
outputs receive the source keys, numeric flags and label; the first
output is filled with the rows at indices below the truncated product of
the fraction and the row count, the second output with the remaining
rows.  (The source shuffles an index vector but never uses it; the row
selection is by plain index order.) -/
def Dataset.split (d : Dataset) (r : ℚ) : CxxOutcome (Dataset × Dataset) :=
  if r < 0 ∨ 1 < r then .exn "ratio should to be >= 0 and <= 1.\n"
  else
    let base : Dataset := ⟨d.keys, d.is_num, fun _ => [], d.label, 0, fun _ => none⟩
    let n := (r * d.size).floor.toNat
    .ok (pushRows base (((List.range d.size).take n).map d.iterrow),
         pushRows base (((List.range d.size).drop n).map d.iterrow))

/-- Ordered insertion by first component, ascending. -/
def insertPair {α : Type} [LinearOrder α] (x : α × Nat) : List (α × Nat) → List (α × Nat)
  | [] => [x]
  | y :: ys => if x.1 ≤ y.1 then x :: y :: ys else y :: insertPair x ys

/-- Ascending stable sort by first component, standing in for the
observable outcome of partial_sort under the default comparison of
first_knn.  (The claims settled below only touch the failure paths of
first_knn, never this ordering.) -/
def sortPairs {α : Type} [LinearOrder α] : List (α × Nat) → List (α × Nat)
  | [] => []
  | x :: xs => insertPair x (sortPairs xs)

/-- Model of KNN::first_knn, generic in the stored proximity measure:
get_label throws when the label is unset (so the empty-vector guard
right after it can never fire); otherwise the query point is
renormalized, every row is paired with its measure against the query,
and the first k pairs of the sorted sequence are returned — the
partial_sort middle iterator is out of range whenever k exceeds the row
count, which is undefined behaviour. -/
def first_knn {α : Type} [LinearOrder α] (d : Dataset) (k : Nat)
    (measure : Dataset → List DataType → List DataType → α)
    (target : List DataType) : CxxOutcome (List (α × Nat)) :=
  match d.get_label with
  | .exn m => .exn m
  | .ub => .ub
  | .ok lbl =>
    if lbl.length = 0 then .ok []
    else
      let t := d.renormalize target
      let res := (List.range d.size).map fun i => (measure d (d.iterrow i) t, i)
      if k ≤ d.size then .ok ((sortPairs res).take k) else .ub

/-- The weight denominator of KNN::predict: the sum of exp(-distance)
over the k neighbor pairs. -/
noncomputable def sumWeights (knn : List (ℚ × Nat)) : ℝ :=
  (knn.map fun p => Real.exp (-(p.1 : ℝ))).sum

/-- Accumulation into the weights map of KNN::predict: an existing label
key has the weight added to its entry, a new label key is appended. -/
noncomputable def addWeight : List (DataType × ℝ) → DataType → ℝ → List (DataType × ℝ)
  | [], k, w => [(k, w)]
  | (k1, w1) :: rest, k, w =>
    if k1 = k then (k1, w1 + w) :: rest else (k1, w1) :: addWeight rest k w

open Classical in
/-- The final selection of KNN::predict: max_element over the weights
map called with the comparison a.second > b.second, which updates the
running candidate exactly when the candidate weight exceeds the current
weight.  (Dereferencing max_element of an empty map is undefined
behaviour; the claims below use non-empty neighbor lists.) -/
noncomputable def selectLabel : List (DataType × ℝ) → DataType
  | [] => default
  | w :: ws => (ws.foldl (fun best x => if best.2 > x.2 then x else best) w).1

/-- The body of KNN::predict after the call to first_knn, taking the
neighbor (distance, row index) pairs directly: locate the label column,
sum the weights exp(-distance), accumulate the normalized weight of each
neighbor under the label value of its row, and run the final
selection. -/
noncomputable def predictCore (d : Dataset) (knn : List (ℚ × Nat)) : DataType :=
  let l := labelIdx d
  let s := sumWeights knn
  selectLabel (knn.foldl
    (fun acc p => addWeight acc ((d.iterrow p.2).getD l default) (Real.exp (-(p.1 : ℝ)) / s)) [])

/-- A confusion matrix as iterated by KNN::evaluate: for each actual
label, the list of (predicted label, count) cells. -/
abbrev ConfMatrix := List (DataType × List (DataType × Nat))

/-- One cell of the metric accumulation of KNN::evaluate (lines 132-149)
over the running (TP, FN, FP, TN) totals: a diagonal cell adds its count
to TP and twice to TN (once inside the branch, once after it); an
off-diagonal cell adds its count to FN, to FP, and once to TN. -/
def evalStep (act : DataType) (t : Nat × Nat × Nat × Nat) (cell : DataType × Nat) :
    Nat × Nat × Nat × Nat :=
  if act = cell.1 then (t.1 + cell.2, t.2.1, t.2.2.1, t.2.2.2 + cell.2 + cell.2)
  else (t.1, t.2.1 + cell.2, t.2.2.1 + cell.2, t.2.2.2 + cell.2)

/-- The (TP, FN, FP, TN) totals of KNN::evaluate over a confusion
matrix. -/
def evalTotals (cm : ConfMatrix) : Nat × Nat × Nat × Nat :=
  cm.foldl (fun t row => row.2.foldl (evalStep row.1) t) (0, 0, 0, 0)

/-- Sum of all cell counts of a confusion matrix (stated from the words
of the specification, for comparison with evalTotals). -/
def cellTotal (cm : ConfMatrix) : Nat :=
  (cm.map fun row => (row.2.map Prod.snd).sum).sum

/-- Sum of the diagonal cell counts of a confusion matrix (stated from
the words of the specification, for comparison with evalTotals). -/
def diagTotal (cm : ConfMatrix) : Nat :=
  (cm.map fun row => ((row.2.filter fun cell => row.1 = cell.1).map Prod.snd).sum).sum

/-- Sum of the off-diagonal cell counts of a confusion matrix (stated
from the words of the specification, for comparison with evalTotals). -/
def offDiagTotal (cm : ConfMatrix) : Nat :=
  (cm.map fun row => ((row.2.filter fun cell => ¬ row.1 = cell.1).map Prod.snd).sum).sum

/-- A one-row table with a categorical column c and a categorical label
column lab, used as concrete input below. -/
def catTable : Dataset where
  keys := ["c", "lab"]
  is_num := [false, false]
  cols := fun k => if k = "c" then [.str "x"] else if k = "lab" then [.str "A"] else []
  label := "lab"
  size := 1
  local_parms := fun _ => none

/-- A two-row table with a numeric column x (values 0 and 2) and a
categorical label column lab, used as concrete input below. -/
def numTable : Dataset where
  keys := ["x", "lab"]
  is_num := [true, false]
  cols := fun k =>
    if k = "x" then [.num 0, .num 2] else if k = "lab" then [.str "A", .str "B"] else []
  label := "lab"
  size := 2
  local_parms := fun _ => none

/-- A one-row, one-column table used as concrete input below. -/
def oneColTable : Dataset :=
  ⟨["x"], [true], fun k => if k = "x" then [.num 5] else [], "", 1, fun _ => none⟩

/-- The payload of a normal return (the empty table on the other
outcomes). -/
def okD (o : CxxOutcome Dataset) : Dataset :=
  match o with
  | .ok d => d
  | _ => emptyDataset

/-- C1: the claim says the default measure skips the label column and
adds 1 for a DIFFERING categorical pair, so a row's distance to itself
would be 0; on the code, a point compared with itself (equal lengths, so
no label skipping happens) accumulates 1 per EQUAL categorical column —
on a one-categorical-column table with a categorical label the
accumulated sum is 2 and the returned square root is nonzero. -/
theorem c1_default_measure_self_distance_nonzero :
    edm_sum catTable [.str "x", .str "A"] [.str "x", .str "A"] = 2 ∧
    euclidean_distance_mesure catTable [.str "x", .str "A"] [.str "x", .str "A"] ≠ 0 := by
  have h0 : edm_sum catTable [.str "x", .str "A"] [.str "x", .str "A"] = 1 + (1 + 0) := rfl
  have h2 : edm_sum catTable [.str "x", .str "A"] [.str "x", .str "A"] = 2 := by
    rw [h0]; norm_num
  refine ⟨h2, ?_⟩
  rw [euclidean_distance_mesure, h2, show ((2 : ℚ) : ℝ) = 2 from by norm_num]
  exact Real.sqrt_ne_zero'.mpr (by norm_num)

/-- C3: with the label unset, get_label throws (the exception escapes
first_knn uncaught and the empty-vector guard after it is dead code), so
first_knn never returns the empty neighbor list the claim promises. -/
theorem c3_first_knn_unset_label_throws {α : Type} [LinearOrder α] (d : Dataset)
    (k : Nat) (meas : Dataset → List DataType → List DataType → α)
    (t : List DataType) (h : d.label.length = 0) :
    first_knn d k meas t = .exn "no label set yet, an empty strin returned.\n" ∧
    ∀ res : List (α × Nat), first_knn d k meas t ≠ .ok res := by
  have hg : d.get_label = .exn "no label set yet, an empty strin returned.\n" := by
    simp [Dataset.get_label, h]
  refine ⟨?_, ?_⟩
  · simp [first_knn, hg]
  · intro res
    simp [first_knn, hg]

/-- Witness for C3 at the default-constructed table. -/
theorem c3_witness :
    emptyDataset.label.length = 0 ∧
    (first_knn emptyDataset 1 edm_sum [] =
        .exn "no label set yet, an empty strin returned.\n" ∧
      ∀ res : List (ℚ × Nat), first_knn emptyDataset 1 edm_sum [] ≠ .ok res) :=
  ⟨rfl, c3_first_knn_unset_label_throws emptyDataset 1 edm_sum [] rfl⟩

/-- C5: with the label set and k exceeding the row count, first_knn
runs partial_sort with an out-of-range middle iterator — undefined
behaviour, not the guarded explicit report the claim promises. -/
theorem c5_first_knn_k_exceeds_rows_ub {α : Type} [LinearOrder α] (d : Dataset)
    (k : Nat) (meas : Dataset → List DataType → List DataType → α)
    (t : List DataType) (hlab : d.label.length ≠ 0) (hk : d.size < k) :
    first_knn d k meas t = .ub := by
  have hg : d.get_label = .ok d.label := by
    simp [Dataset.get_label, hlab]
  simp [first_knn, hg, hlab, Nat.not_le.mpr hk]

/-- Witness for C5 at a one-row table with k = 2. -/
theorem c5_witness :
    catTable.label.length ≠ 0 ∧ catTable.size < 2 ∧
    first_knn catTable 2 edm_sum [] = .ub :=
  ⟨by decide, by decide,
    c5_first_knn_k_exceeds_rows_ub catTable 2 edm_sum [] (by decide) (by decide)⟩

/-- C9: remove pops one entry from every column but leaves the stored
row counter untouched, so on a one-row table the surviving counter (1)
differs from every column length (0) — the claimed invariant is
broken. -/
theorem c9_remove_breaks_row_count :
    (Dataset.remove oneColTable 0).isOk = true ∧
    ((okD (Dataset.remove oneColTable 0)).cols "x").length = 0 ∧
    (okD (Dataset.remove oneColTable 0)).size = 1 :=
  ⟨rfl, rfl, rfl⟩

/-- A confusion matrix with a single diagonal cell, used as concrete
input below. -/
def cmOne : ConfMatrix := [(.str "A", [(.str "A", 1)])]

/-- C7 counterexample: on a matrix holding one diagonal cell of count 1,
the code's TN total is 2, while the claimed accumulation (every cell
once plus every off-diagonal cell again) gives 1. -/
theorem c7_tn_counterexample :
    (evalTotals cmOne).2.2.2 = 2 ∧ cellTotal cmOne + offDiagTotal cmOne = 1 ∧
    (evalTotals cmOne).2.2.2 ≠ cellTotal cmOne + offDiagTotal cmOne := by
  decide

/-- Inner loop of the metric accumulation: folding the cells of one
actual-label row over the running totals adds the row's diagonal mass to
TP, its off-diagonal mass to FN and to FP, and its whole mass plus its
diagonal mass again to TN. -/
theorem evalStep_foldl (act : DataType) (cells : List (DataType × Nat))
    (t : Nat × Nat × Nat × Nat) :
    cells.foldl (evalStep act) t =
      (t.1 + ((cells.filter fun cell => act = cell.1).map Prod.snd).sum,
       t.2.1 + ((cells.filter fun cell => ¬ act = cell.1).map Prod.snd).sum,
       t.2.2.1 + ((cells.filter fun cell => ¬ act = cell.1).map Prod.snd).sum,
       t.2.2.2 + (cells.map Prod.snd).sum +
         ((cells.filter fun cell => act = cell.1).map Prod.snd).sum) := by
  induction cells generalizing t with
  | nil => simp
  | cons c cs ih =>
    rw [List.foldl_cons, ih]
    by_cases h : act = c.1 <;>
      simp [evalStep, h, List.filter_cons, Prod.ext_iff] <;> omega

/-- Outer loop of the metric accumulation, over the whole matrix. -/
theorem evalTotals_foldl (cm : ConfMatrix) (t : Nat × Nat × Nat × Nat) :
    cm.foldl (fun t row => row.2.foldl (evalStep row.1) t) t =
      (t.1 + diagTotal cm, t.2.1 + offDiagTotal cm, t.2.2.1 + offDiagTotal cm,
       t.2.2.2 + cellTotal cm + diagTotal cm) := by
  induction cm generalizing t with
  | nil => simp [diagTotal, offDiagTotal, cellTotal]
  | cons row rows ih =>
    rw [List.foldl_cons, ih, evalStep_foldl]
    simp [diagTotal, offDiagTotal, cellTotal, Prod.ext_iff]
    omega

/-- C7 amended: over every confusion matrix, each off-diagonal cell
count contributes once to the FN total and once to the FP total, and the
TN total accumulates every matrix cell once plus every DIAGONAL cell a
second time (the TP total being the diagonal mass). -/
theorem c7_eval_totals_characterization (cm : ConfMatrix) :
    evalTotals cm =
      (diagTotal cm, offDiagTotal cm, offDiagTotal cm, cellTotal cm + diagTotal cm) := by
  unfold evalTotals
  rw [evalTotals_foldl]
  simp

/-- C10: the normalization denominator of predict — the sum of
exp(-distance) over the neighbors — is strictly positive for every
non-empty neighbor list. -/
theorem c10_sum_weights_pos (knn : List (ℚ × Nat)) (h : knn ≠ []) :
    0 < sumWeights knn := by
  cases knn with
  | nil => exact absurd rfl h
  | cons p ps =>
    unfold sumWeights
    simp only [List.map_cons, List.sum_cons]
    have h1 : 0 < Real.exp (-(p.1 : ℝ)) := Real.exp_pos _
    have h2 : 0 ≤ (ps.map fun q => Real.exp (-(q.1 : ℝ))).sum := by
      apply List.sum_nonneg
      intro x hx
      simp only [List.mem_map] at hx
      obtain ⟨q, _, rfl⟩ := hx
      exact (Real.exp_pos _).le
    linarith

/-- Witness for C10 at a single neighbor of distance 0. -/
theorem c10_witness :
    ([((0 : ℚ), (0 : Nat))] ≠ []) ∧ 0 < sumWeights [((0 : ℚ), (0 : Nat))] :=
  ⟨by decide, c10_sum_weights_pos [((0 : ℚ), (0 : Nat))] (by decide)⟩

/-- Appending a fixed suffix to column names is injective. -/
theorem append_suffix_inj {a b : String} {s : String} (h : a ++ s = b ++ s) : a = b := by
  have hd := congrArg String.data h
  rw [String.data_append, String.data_append] at hd
  exact String.ext (List.append_cancel_right hd)

/-- The nmax parameter key of one column never equals the nmin parameter
key of another. -/
theorem nmax_key_ne_nmin_key (a b : String) : a ++ " nmax" ≠ b ++ " nmin" := by
  intro h
  have hd := congrArg String.data h
  rw [String.data_append, String.data_append] at hd
  have hlen := congrArg List.length hd
  rw [List.length_append, List.length_append] at hlen
  have h5 : (" nmax".data).length = 5 := rfl
  have h6 : (" nmin".data).length = 5 := rfl
  have hab : a.data.length = b.data.length := by omega
  have h7 := (List.append_inj hd hab).2
  simp at h7

/-- Distinct strings give distinct string-tagged DataType keys. -/
theorem str_ne_str {s t : String} (h : s ≠ t) : DataType.str s ≠ DataType.str t :=
  fun hh => h (DataType.str.inj hh)

/-- A min fold is bounded by its starting value. -/
theorem foldl_min_le_self (l : List ℚ) (x : ℚ) : l.foldl min x ≤ x := by
  induction l generalizing x with
  | nil => simp
  | cons a l ih =>
    simpa using le_trans (ih (min x a)) (min_le_left x a)

/-- A min fold is bounded by every list element. -/
theorem foldl_min_le_mem (l : List ℚ) : ∀ (x v : ℚ), v ∈ l → l.foldl min x ≤ v := by
  induction l with
  | nil => intro x v hv; cases hv
  | cons a l ih =>
    intro x v hv
    simp only [List.foldl_cons]
    rcases List.mem_cons.mp hv with rfl | hv2
    · exact le_trans (foldl_min_le_self l (min x v)) (min_le_right x v)
    · exact ih (min x a) v hv2

/-- listMin is a lower bound of the list. -/
theorem listMin_le (l : List ℚ) (v : ℚ) (hv : v ∈ l) : listMin l ≤ v := by
  cases l with
  | nil => cases hv
  | cons x xs =>
    rcases List.mem_cons.mp hv with rfl | hv2
    · exact foldl_min_le_self xs v
    · exact foldl_min_le_mem xs x v hv2

/-- A max fold is bounded below by its starting value. -/
theorem self_le_foldl_max (l : List ℚ) (x : ℚ) : x ≤ l.foldl max x := by
  induction l generalizing x with
  | nil => simp
  | cons a l ih =>
    simpa using le_trans (le_max_left x a) (ih (max x a))

/-- A max fold dominates every list element. -/
theorem mem_le_foldl_max (l : List ℚ) : ∀ (x v : ℚ), v ∈ l → v ≤ l.foldl max x := by
  induction l with
  | nil => intro x v hv; cases hv
  | cons a l ih =>
    intro x v hv
    simp only [List.foldl_cons]
    rcases List.mem_cons.mp hv with rfl | hv2
    · exact le_trans (le_max_right x v) (self_le_foldl_max l (max x v))
    · exact ih (max x a) v hv2

/-- listMax is an upper bound of the list. -/
theorem le_listMax (l : List ℚ) (v : ℚ) (hv : v ∈ l) : v ≤ listMax l := by
  cases l with
  | nil => cases hv
  | cons x xs =>
    rcases List.mem_cons.mp hv with rfl | hv2
    · exact self_le_foldl_max xs v
    · exact mem_le_foldl_max xs x v hv2

/-- A list holding two distinct values has its minimum strictly below
its maximum. -/
theorem listMin_lt_listMax (l : List ℚ) (a b : ℚ) (ha : a ∈ l) (hb : b ∈ l)
    (hab : a ≠ b) : listMin l < listMax l := by
  rcases hab.lt_or_lt with h | h
  · exact lt_of_le_of_lt (listMin_le l a ha) (lt_of_lt_of_le h (le_listMax l b hb))
  · exact lt_of_le_of_lt (listMin_le l b hb) (lt_of_lt_of_le h (le_listMax l a ha))

/-- Inserting at an absent key stores the new value. -/
theorem parmInsert_absent (p : DataType → Option DataType) (key v : DataType)
    (h : p key = none) : parmInsert p key v key = some v := by
  simp [parmInsert, h]

/-- Insertion leaves other keys alone. -/
theorem parmInsert_other (p : DataType → Option DataType) (key v x : DataType)
    (h : x ≠ key) : parmInsert p key v x = p x := by
  simp [parmInsert, h]

/-- Insertion never discards a stored value. -/
theorem parmInsert_mono (p : DataType → Option DataType) (key v x w : DataType)
    (h : p x = some w) : parmInsert p key v x = some w := by
  unfold parmInsert
  by_cases hx : x = key
  · subst hx; simp [h]
  · simp [hx, h]

/-- The normalization loop never discards a stored parameter. -/
theorem normLoop_parms_mono (ks : List (String × Bool)) :
    ∀ (c : String → List DataType) (p : DataType → Option DataType)
      (x w : DataType), p x = some w → (normLoop ks c p).2 x = some w := by
  induction ks with
  | nil => intro c p x w h; exact h
  | cons pr ks ih =>
    obtain ⟨k, bnum⟩ := pr
    intro c p x w h
    cases bnum with
    | false => simpa [normLoop] using ih c p x w h
    | true =>
      simp only [normLoop]
      exact ih _ _ x w (parmInsert_mono _ _ _ _ _ (parmInsert_mono _ _ _ _ _ h))

/-- The normalization loop leaves columns it never visits alone. -/
theorem normLoop_cols_not_mem (ks : List (String × Bool)) :
    ∀ (c : String → List DataType) (p : DataType → Option DataType) (k : String),
      (∀ pr ∈ ks, pr.1 ≠ k) → (normLoop ks c p).1 k = c k := by
  induction ks with
  | nil => intro c p k _; rfl
  | cons pr ks ih =>
    obtain ⟨k0, bnum⟩ := pr
    intro c p k hk
    have hk0 : k0 ≠ k := hk (k0, bnum) (List.mem_cons_self _ _)
    cases bnum with
    | false =>
      simpa [normLoop] using ih c p k (fun pr hpr => hk pr (List.mem_cons_of_mem _ hpr))
    | true =>
      simp only [normLoop, if_true]
      rw [ih _ _ k (fun pr hpr => hk pr (List.mem_cons_of_mem _ hpr))]
      simp [hk0.symm]

/-- What the normalization loop does to a column it visits exactly once
whose parameters are not yet recorded: a numeric column is rewritten by
the range transform of its own minimum and maximum and both parameters
are recorded; a categorical column is untouched. -/
theorem normLoop_spec (ks : List (String × Bool)) :
    ∀ (c : String → List DataType) (p : DataType → Option DataType)
      (k : String) (b : Bool),
      (ks.map Prod.fst).Nodup → (k, b) ∈ ks →
      p (.str (k ++ " nmax")) = none → p (.str (k ++ " nmin")) = none →
      (b = true →
        (normLoop ks c p).1 k =
          (c k).map (fun v => .num ((asNum v - listMin ((c k).map asNum)) /
            (listMax ((c k).map asNum) - listMin ((c k).map asNum)))) ∧
        (normLoop ks c p).2 (.str (k ++ " nmax")) =
          some (.num (listMax ((c k).map asNum))) ∧
        (normLoop ks c p).2 (.str (k ++ " nmin")) =
          some (.num (listMin ((c k).map asNum)))) ∧
      (b = false → (normLoop ks c p).1 k = c k) := by
  induction ks with
  | nil => intro c p k b _ hmem; cases hmem
  | cons pr ks ih =>
    obtain ⟨k0, b0⟩ := pr
    intro c p k b hnd hmem hmax hmin
    rw [List.map_cons, List.nodup_cons] at hnd
    rcases List.mem_cons.mp hmem with heq | hmem2
    · have hk : k = k0 := congrArg Prod.fst heq
      have hb : b = b0 := congrArg Prod.snd heq
      subst hk
      subst hb
      have hrest : ∀ pr ∈ ks, pr.1 ≠ k := by
        intro pr hpr hpk
        have hmm : pr.1 ∈ ks.map Prod.fst := List.mem_map_of_mem Prod.fst hpr
        rw [hpk] at hmm
        exact hnd.1 hmm
      cases b with
      | false =>
        refine ⟨fun hcontra => absurd hcontra (by simp), fun _ => ?_⟩
        simpa [normLoop] using normLoop_cols_not_mem ks c p k hrest
      | true =>
        refine ⟨fun _ => ?_, fun hcontra => absurd hcontra (by simp)⟩
        simp only [normLoop, if_true]
        refine ⟨?_, ?_, ?_⟩
        · rw [normLoop_cols_not_mem ks _ _ k hrest]
          simp
        · apply normLoop_parms_mono
          rw [parmInsert_other _ _ _ _ (str_ne_str (Ne.symm (nmax_key_ne_nmin_key k k)).symm)]
          exact parmInsert_absent _ _ _ hmax
        · apply normLoop_parms_mono
          apply parmInsert_absent
          rw [parmInsert_other _ _ _ _ (str_ne_str (nmax_key_ne_nmin_key k k).symm)]
          exact hmin
    · have hkne : k ≠ k0 := by
        intro hkk
        have hmm : k ∈ ks.map Prod.fst := List.mem_map_of_mem Prod.fst hmem2
        rw [hkk] at hmm
        exact hnd.1 hmm
      cases b0 with
      | false =>
        simpa [normLoop] using ih c p k b hnd.2 hmem2 hmax hmin
      | true =>
        simp only [normLoop, if_true]
        have hpm : parmInsert (parmInsert p (.str (k0 ++ " nmax"))
            (.num (listMax ((c k0).map asNum)))) (.str (k0 ++ " nmin"))
            (.num (listMin ((c k0).map asNum))) (.str (k ++ " nmax")) = none := by
          rw [parmInsert_other _ _ _ _ (str_ne_str (nmax_key_ne_nmin_key k k0)),
            parmInsert_other _ _ _ _ (str_ne_str (fun hh => hkne (append_suffix_inj hh)))]
          exact hmax
        have hpn : parmInsert (parmInsert p (.str (k0 ++ " nmax"))
            (.num (listMax ((c k0).map asNum)))) (.str (k0 ++ " nmin"))
            (.num (listMin ((c k0).map asNum))) (.str (k ++ " nmin")) = none := by
          rw [parmInsert_other _ _ _ _ (str_ne_str (fun hh => hkne (append_suffix_inj hh))),
            parmInsert_other _ _ _ _ (str_ne_str (Ne.symm (nmax_key_ne_nmin_key k0 k)))]
          exact hmin
        have hrec := ih (fun s => if s = k0 then
            (c k0).map (fun v => DataType.num ((asNum v - listMin ((c k0).map asNum)) /
              (listMax ((c k0).map asNum) - listMin ((c k0).map asNum)))) else c s)
          (parmInsert (parmInsert p (.str (k0 ++ " nmax")) (.num (listMax ((c k0).map asNum))))
            (.str (k0 ++ " nmin")) (.num (listMin ((c k0).map asNum))))
          k b hnd.2 hmem2 hpm hpn
        simpa [hkne] using hrec

/-- Two distinct numeric values stay distinct under the numeric read. -/
theorem holdsNum_asNum_inj {a b : DataType} (ha : a.holdsNum = true)
    (hb : b.holdsNum = true) (hab : a ≠ b) : asNum a ≠ asNum b := by
  cases a with
  | num qa =>
    cases b with
    | num qb =>
      intro hq
      simp only [asNum] at hq
      exact hab (by rw [hq])
    | str s => simp [DataType.holdsNum] at hb
  | str s => simp [DataType.holdsNum] at ha

/-- The pair of a key and its numeric flag at a common index belongs to
the zipped key/flag list. -/
theorem key_flag_mem_zip (d : Dataset) (hlen : d.is_num.length = d.keys.length)
    (i : Nat) (hi : i < d.keys.length) :
    (d.keys.getD i "", d.is_num.getD i false) ∈ d.keys.zip d.is_num := by
  have hzlen : i < (d.keys.zip d.is_num).length := by
    rw [List.length_zip]; omega
  have hm := List.getElem_mem hzlen
  rw [List.getElem_zip] at hm
  rw [List.getD_eq_getElem _ _ hi, List.getD_eq_getElem _ _ (by omega : i < d.is_num.length)]
  exact hm

/-- C6: after the first normalize() on a well-formed table, every
numeric column holding at least two distinct numeric values has its
pre-normalization minimum and maximum recorded under the nmin/nmax
parameter keys and every rewritten value is a number inside the unit
interval, while a categorical column is unchanged. -/
theorem c6_normalize_contract (d : Dataset)
    (hnd : d.keys.Nodup)
    (hlen : d.is_num.length = d.keys.length)
    (hparms : ∀ s, d.local_parms s = none)
    (i : Nat) (hi : i < d.keys.length) :
    (d.is_num.getD i false = true →
      (∀ v ∈ d.cols (d.keys.getD i ""), v.holdsNum = true) →
      (∃ a ∈ d.cols (d.keys.getD i ""), ∃ b2 ∈ d.cols (d.keys.getD i ""), a ≠ b2) →
      (d.normalize.local_parms (.str (d.keys.getD i "" ++ " nmin")) =
          some (.num (listMin ((d.cols (d.keys.getD i "")).map asNum))) ∧
        d.normalize.local_parms (.str (d.keys.getD i "" ++ " nmax")) =
          some (.num (listMax ((d.cols (d.keys.getD i "")).map asNum)))) ∧
      (∀ w ∈ d.normalize.cols (d.keys.getD i ""),
        w.holdsNum = true ∧ 0 ≤ asNum w ∧ asNum w ≤ 1)) ∧
    (d.is_num.getD i false = false →
      d.normalize.cols (d.keys.getD i "") = d.cols (d.keys.getD i "")) := by
  have hnd2 : ((d.keys.zip d.is_num).map Prod.fst).Nodup := by
    rw [List.map_fst_zip _ _ (le_of_eq hlen.symm)]
    exact hnd
  have hspec := normLoop_spec (d.keys.zip d.is_num) d.cols d.local_parms
    (d.keys.getD i "") (d.is_num.getD i false) hnd2
    (key_flag_mem_zip d hlen i hi) (hparms _) (hparms _)
  constructor
  · intro hb hall hdist
    have h1 := hspec.1 hb
    have hcols : d.normalize.cols (d.keys.getD i "") =
        (d.cols (d.keys.getD i "")).map (fun v =>
          DataType.num ((asNum v - listMin ((d.cols (d.keys.getD i "")).map asNum)) /
            (listMax ((d.cols (d.keys.getD i "")).map asNum) -
              listMin ((d.cols (d.keys.getD i "")).map asNum)))) := h1.1
    refine ⟨⟨h1.2.2, h1.2.1⟩, ?_⟩
    intro w hw
    rw [hcols] at hw
    obtain ⟨v, hv, rfl⟩ := List.mem_map.mp hw
    obtain ⟨a, ha, b2, hb2, hab⟩ := hdist
    have hlt : listMin ((d.cols (d.keys.getD i "")).map asNum) <
        listMax ((d.cols (d.keys.getD i "")).map asNum) :=
      listMin_lt_listMax _ (asNum a) (asNum b2)
        (List.mem_map_of_mem asNum ha) (List.mem_map_of_mem asNum hb2)
        (holdsNum_asNum_inj (hall a ha) (hall b2 hb2) hab)
    have hmn : listMin ((d.cols (d.keys.getD i "")).map asNum) ≤ asNum v :=
      listMin_le _ _ (List.mem_map_of_mem asNum hv)
    have hmx : asNum v ≤ listMax ((d.cols (d.keys.getD i "")).map asNum) :=
      le_listMax _ _ (List.mem_map_of_mem asNum hv)
    refine ⟨rfl, ?_, ?_⟩
    · show 0 ≤ (asNum v - _) / (_ - _)
      apply div_nonneg <;> linarith
    · show (asNum v - _) / (_ - _) ≤ 1
      rw [div_le_one (by linarith)]
      linarith
  · intro hb
    exact hspec.2 hb

/-- Witness for C6 at the two-row table with numeric column values 0
and 2, at column index 0. -/
theorem c6_witness :
    numTable.keys.Nodup ∧ numTable.is_num.length = numTable.keys.length ∧
    (∀ s, numTable.local_parms s = none) ∧ 0 < numTable.keys.length ∧
    ((numTable.is_num.getD 0 false = true →
      (∀ v ∈ numTable.cols (numTable.keys.getD 0 ""), v.holdsNum = true) →
      (∃ a ∈ numTable.cols (numTable.keys.getD 0 ""),
        ∃ b2 ∈ numTable.cols (numTable.keys.getD 0 ""), a ≠ b2) →
      (numTable.normalize.local_parms (.str (numTable.keys.getD 0 "" ++ " nmin")) =
          some (.num (listMin ((numTable.cols (numTable.keys.getD 0 "")).map asNum))) ∧
        numTable.normalize.local_parms (.str (numTable.keys.getD 0 "" ++ " nmax")) =
          some (.num (listMax ((numTable.cols (numTable.keys.getD 0 "")).map asNum)))) ∧
      (∀ w ∈ numTable.normalize.cols (numTable.keys.getD 0 ""),
        w.holdsNum = true ∧ 0 ≤ asNum w ∧ asNum w ≤ 1)) ∧
    (numTable.is_num.getD 0 false = false →
      numTable.normalize.cols (numTable.keys.getD 0 "") =
        numTable.cols (numTable.keys.getD 0 ""))) :=
  ⟨by decide, by decide, fun s => rfl, by decide,
    c6_normalize_contract numTable (by decide) (by decide) (fun s => rfl) 0 (by decide)⟩

/-- C4 counterexample: on the two-row table with numeric values 0 and 2,
after normalize() the second row reads [1, "B"], and renormalize maps it
to [1/2, "B"] — the round trip does not reproduce the row, because
renormalize re-applies the forward scaling instead of inverting it. -/
theorem c4_round_trip_counterexample :
    numTable.normalize.renormalize (numTable.normalize.iterrow 1) ≠
      numTable.normalize.iterrow 1 := by
  intro h
  simp [Dataset.renormalize, Dataset.iterrow, Dataset.normalize, normLoop,
    numTable, parmInsert, Dataset.parm, listMin, listMax, asNum,
    List.range_succ] at h

/-- The keys of a normalized table. -/
theorem normalize_keys (d : Dataset) : d.normalize.keys = d.keys := rfl

/-- The numeric flags of a normalized table. -/
theorem normalize_is_num (d : Dataset) : d.normalize.is_num = d.is_num := rfl

/-- The columns of a normalized table, as the loop leaves them. -/
theorem normalize_cols (d : Dataset) :
    d.normalize.cols = (normLoop (d.keys.zip d.is_num) d.cols d.local_parms).1 := rfl

/-- The parameters of a normalized table, as the loop leaves them. -/
theorem normalize_parms (d : Dataset) :
    d.normalize.local_parms = (normLoop (d.keys.zip d.is_num) d.cols d.local_parms).2 := rfl

/-- C4 amended: renormalize re-applies the stored forward scaling, so
the round trip reproduces a row of the normalized table exactly when
that scaling is the identity — in particular whenever every numeric
column's pre-normalization minimum is 0 and maximum is 1. -/
theorem c4_round_trip_unit_range (d : Dataset)
    (hnd : d.keys.Nodup)
    (hlen : d.is_num.length = d.keys.length)
    (hparms : ∀ s, d.local_parms s = none)
    (hunit : ∀ j, j < d.keys.length → d.is_num.getD j false = true →
      listMin ((d.cols (d.keys.getD j "")).map asNum) = 0 ∧
      listMax ((d.cols (d.keys.getD j "")).map asNum) = 1)
    (i : Nat) :
    d.normalize.renormalize (d.normalize.iterrow i) = d.normalize.iterrow i := by
  have hrowlen : (d.normalize.iterrow i).length = d.keys.length := by
    simp [Dataset.iterrow, normalize_keys]
  apply List.ext_getElem
  · simp [Dataset.renormalize]
  · intro j hj hj2
    have hjk : j < d.keys.length := by
      rw [← hrowlen]; exact hj2
    have hspec := normLoop_spec (d.keys.zip d.is_num) d.cols d.local_parms
      (d.keys.getD j "") (d.is_num.getD j false)
      (by rw [List.map_fst_zip _ _ (le_of_eq hlen.symm)]; exact hnd)
      (key_flag_mem_zip d hlen j hjk) (hparms _) (hparms _)
    simp only [Dataset.renormalize, List.getElem_map, List.getElem_range,
      normalize_is_num, normalize_keys]
    by_cases hb : d.is_num.getD j false = true
    · have hmnmx := hunit j hjk hb
      have hpmin : d.normalize.local_parms (.str (d.keys.getD j "" ++ " nmin")) =
          some (.num 0) := by
        rw [normalize_parms, (hspec.1 hb).2.2, hmnmx.1]
      have hpmax : d.normalize.local_parms (.str (d.keys.getD j "" ++ " nmax")) =
          some (.num 1) := by
        rw [normalize_parms, (hspec.1 hb).2.1, hmnmx.2]
      have hcolsj : d.normalize.cols (d.keys.getD j "") =
          (d.cols (d.keys.getD j "")).map (fun v =>
            DataType.num ((asNum v - 0) / (1 - 0))) := by
        rw [normalize_cols, (hspec.1 hb).1, hmnmx.1, hmnmx.2]
      have hentry : ∃ q : ℚ, (d.normalize.iterrow i).getD j default = .num q := by
        rw [List.getD_eq_getElem _ _ hj2]
        simp only [Dataset.iterrow, normalize_keys, List.getElem_map]
        have hk : d.keys[j] = d.keys.getD j "" := (List.getD_eq_getElem _ _ hjk).symm
        rw [hk, hcolsj]
        by_cases hi2 : i < ((d.cols (d.keys.getD j "")).map (fun v =>
            DataType.num ((asNum v - 0) / (1 - 0)))).length
        · rw [List.getD_eq_getElem _ _ hi2, List.getElem_map]
          exact ⟨_, rfl⟩
        · rw [List.getD_eq_default _ _ (Nat.le_of_not_lt hi2)]
          exact ⟨0, rfl⟩
      obtain ⟨q, hq⟩ := hentry
      rw [if_pos hb]
      simp only [Dataset.parm, hpmin, hpmax, Option.getD_some]
      rw [hq, ← List.getD_eq_getElem _ _ hj2, hq]
      simp [asNum]
    · rw [if_neg hb]
      exact List.getD_eq_getElem _ _ hj2

/-- A two-row table whose numeric column already spans exactly the unit
interval, used as concrete input below. -/
def unitTable : Dataset where
  keys := ["x", "lab"]
  is_num := [true, false]
  cols := fun k =>
    if k = "x" then [.num 0, .num 1] else if k = "lab" then [.str "A", .str "B"] else []
  label := "lab"
  size := 2
  local_parms := fun _ => none

/-- Witness for the amended C4 at the unit-interval table, row 1. -/
theorem c4_witness :
    unitTable.keys.Nodup ∧ unitTable.is_num.length = unitTable.keys.length ∧
    (∀ s, unitTable.local_parms s = none) ∧
    (∀ j, j < unitTable.keys.length → unitTable.is_num.getD j false = true →
      listMin ((unitTable.cols (unitTable.keys.getD j "")).map asNum) = 0 ∧
      listMax ((unitTable.cols (unitTable.keys.getD j "")).map asNum) = 1) ∧
    unitTable.normalize.renormalize (unitTable.normalize.iterrow 1) =
      unitTable.normalize.iterrow 1 :=
  ⟨by decide, by decide, fun s => rfl, by decide,
    c4_round_trip_unit_range unitTable (by decide) (by decide) (fun s => rfl) (by decide) 1⟩

/-- The push_back column loop leaves columns it never visits alone. -/
theorem pushLoop_not_mem (ks : List String) :
    ∀ (j : Nat) (row : List DataType) (c : String → List DataType) (k : String),
      k ∉ ks → pushLoop ks j row c k = c k := by
  induction ks with
  | nil => intro j row c k _; rfl
  | cons k0 ks ih =>
    intro j row c k hk
    have hne : k ≠ k0 := fun h => hk (h ▸ List.mem_cons_self _ _)
    simp only [pushLoop]
    rw [ih (j + 1) row _ k (fun h => hk (List.mem_cons_of_mem _ h))]
    simp [hne]

/-- The push_back column loop appends to the column at position n of a
duplicate-free key list exactly the row entry at the matching offset. -/
theorem pushLoop_mem (ks : List String) :
    ∀ (hnd : ks.Nodup) (j : Nat) (row : List DataType)
      (c : String → List DataType) (n : Nat), n < ks.length →
      pushLoop ks j row c (ks.getD n "") =
        c (ks.getD n "") ++ [row.getD (j + n) default] := by
  induction ks with
  | nil => intro _ j row c n hn; exact absurd hn (Nat.not_lt_zero n)
  | cons k0 ks ih =>
    intro hnd j row c n hn
    rw [List.nodup_cons] at hnd
    cases n with
    | zero =>
      simp only [pushLoop, List.getD_cons_zero]
      rw [pushLoop_not_mem ks (j + 1) row _ k0 hnd.1]
      simp
    | succ m =>
      have hm : m < ks.length := by
        simp only [List.length_cons] at hn; omega
      have hkn : ks.getD m "" ≠ k0 := by
        intro h
        apply hnd.1
        rw [← h, List.getD_eq_getElem _ _ hm]
        exact List.getElem_mem hm
      simp only [pushLoop, List.getD_cons_succ]
      rw [ih hnd.2 (j + 1) row _ m hm]
      have hidx : j + 1 + m = j + (m + 1) := by omega
      rw [hidx]
      show (if ks.getD m "" = k0 then c (ks.getD m "") ++ [row.getD j default]
          else c (ks.getD m "")) ++ [row.getD (j + (m + 1)) default] =
        c (ks.getD m "") ++ [row.getD (j + (m + 1)) default]
      rw [if_neg hkn]

/-- push_back appends the row entry at position n to the column named at
position n of a duplicate-free key list. -/
theorem push_back_col (t : Dataset) (row : List DataType) (n : Nat)
    (hnd : t.keys.Nodup) (hn : n < t.keys.length) :
    (t.push_back row).cols (t.keys.getD n "") =
      t.cols (t.keys.getD n "") ++ [row.getD n default] := by
  show pushLoop t.keys 0 row t.cols _ = _
  rw [pushLoop_mem t.keys hnd 0 row t.cols n hn, Nat.zero_add]

/-- Repeated push_back keeps the keys. -/
theorem pushRows_keys (rows : List (List DataType)) :
    ∀ t : Dataset, (pushRows t rows).keys = t.keys := by
  induction rows with
  | nil => intro t; rfl
  | cons r rs ih => intro t; exact ih (t.push_back r)

/-- Repeated push_back keeps the numeric flags. -/
theorem pushRows_is_num (rows : List (List DataType)) :
    ∀ t : Dataset, (pushRows t rows).is_num = t.is_num := by
  induction rows with
  | nil => intro t; rfl
  | cons r rs ih => intro t; exact ih (t.push_back r)

/-- Repeated push_back keeps the label. -/
theorem pushRows_label (rows : List (List DataType)) :
    ∀ t : Dataset, (pushRows t rows).label = t.label := by
  induction rows with
  | nil => intro t; rfl
  | cons r rs ih => intro t; exact ih (t.push_back r)

/-- Repeated push_back grows the row counter by the number of rows. -/
theorem pushRows_size (rows : List (List DataType)) :
    ∀ t : Dataset, (pushRows t rows).size = t.size + rows.length := by
  induction rows with
  | nil => intro t; rfl
  | cons r rs ih =>
    intro t
    show (pushRows (t.push_back r) rs).size = _
    rw [ih (t.push_back r)]
    show t.size + 1 + rs.length = _
    simp [List.length_cons]
    omega

/-- Repeated push_back appends, entry by entry, the matching projection
of every row to the column named at position n of a duplicate-free key
list. -/
theorem pushRows_col (rows : List (List DataType)) :
    ∀ (t : Dataset) (n : Nat), t.keys.Nodup → n < t.keys.length →
      (pushRows t rows).cols (t.keys.getD n "") =
        t.cols (t.keys.getD n "") ++ rows.map (fun r => r.getD n default) := by
  induction rows with
  | nil => intro t n _ _; simp [pushRows]
  | cons r rs ih =>
    intro t n hnd hn
    show (pushRows (t.push_back r) rs).cols _ = _
    have hrec := ih (t.push_back r) n hnd hn
    have hkeq : (t.push_back r).keys = t.keys := rfl
    rw [hkeq] at hrec
    rw [hrec, push_back_col t r n hnd hn]
    simp

/-- Reading a prefix of row indices out of one column reproduces the
column prefix. -/
theorem map_getD_range_take (l : List DataType) (N n : Nat) (hN : l.length = N)
    (hn : n ≤ N) :
    ((List.range N).take n).map (fun m => l.getD m default) = l.take n := by
  subst hN
  rw [List.take_range]
  apply List.ext_getElem
  · simp [Nat.min_eq_left hn]
  · intro j hj hj2
    simp only [List.getElem_map, List.getElem_range, List.getElem_take]
    have hjl : j < l.length := by
      simp only [List.length_map, List.length_range] at hj
      omega
    rw [List.getD_eq_getElem _ _ hjl]

/-- Reading the remaining row indices out of one column reproduces the
column suffix. -/
theorem map_getD_range_drop (l : List DataType) (N n : Nat) (hN : l.length = N) :
    ((List.range N).drop n).map (fun m => l.getD m default) = l.drop n := by
  subst hN
  apply List.ext_getElem
  · simp
  · intro j hj hj2
    simp only [List.getElem_map, List.getElem_drop, List.getElem_range]
    have hjl : n + j < l.length := by
      simp only [List.length_map, List.length_drop, List.length_range] at hj
      omega
    rw [List.getD_eq_getElem _ _ hjl]

/-- Projecting an assembled row at position n reads the column named at
position n. -/
theorem iterrow_getD (d : Dataset) (m j : Nat) (hj : j < d.keys.length) :
    (d.iterrow m).getD j default = (d.cols (d.keys.getD j "")).getD m default := by
  unfold Dataset.iterrow
  have hjm : j < (d.keys.map fun k => (d.cols k).getD m default).length := by
    simp [hj]
  rw [List.getD_eq_getElem _ _ hjm, List.getElem_map, List.getD_eq_getElem _ _ hj]

/-- Projecting assembled rows at position n reads the column named at
position n, index by index. -/
theorem map_iterrow_getD (d : Dataset) (j : Nat) (hj : j < d.keys.length)
    (ll : List Nat) :
    (ll.map d.iterrow).map (fun r => r.getD j default) =
      ll.map (fun m => (d.cols (d.keys.getD j "")).getD m default) := by
  rw [List.map_map]
  apply List.map_congr_left
  intro m _
  exact iterrow_getD d m j hj

/-- The truncated three-quarters row count never exceeds the row
count. -/
theorem floor_three_quarters_le (N : Nat) :
    ((3 / 4 : ℚ) * N).floor.toNat ≤ N := by
  have h1 : (3 / 4 : ℚ) * N ≤ (N : ℚ) := by
    apply mul_le_of_le_one_left (by positivity)
    norm_num
  have h2 := Int.floor_le_floor h1
  rw [Int.floor_natCast] at h2
  have h3 : ⌊(3 / 4 : ℚ) * N⌋ = ((3 / 4 : ℚ) * N).floor := rfl
  rw [h3] at h2
  omega

/-- C8: split with fraction 3/4 succeeds and produces a first table
holding the first floor(0.75 N) rows and a second holding the rest:
sizes add back to N, every column of the source is partitioned into a
prefix and the matching suffix (each original row kept exactly once),
and both outputs inherit key order, numeric flags and label. -/
theorem c8_split_three_quarters (d : Dataset)
    (hnd : d.keys.Nodup)
    (hcols : ∀ k ∈ d.keys, (d.cols k).length = d.size) :
    ∃ tr te : Dataset, d.split (3 / 4) = .ok (tr, te) ∧
      tr.size = ((3 / 4 : ℚ) * d.size).floor.toNat ∧
      te.size = d.size - ((3 / 4 : ℚ) * d.size).floor.toNat ∧
      tr.keys = d.keys ∧ te.keys = d.keys ∧
      tr.is_num = d.is_num ∧ te.is_num = d.is_num ∧
      tr.label = d.label ∧ te.label = d.label ∧
      ∀ k ∈ d.keys,
        tr.cols k = (d.cols k).take (((3 / 4 : ℚ) * d.size).floor.toNat) ∧
        te.cols k = (d.cols k).drop (((3 / 4 : ℚ) * d.size).floor.toNat) ∧
        tr.cols k ++ te.cols k = d.cols k := by
  have hguard : ¬((3 / 4 : ℚ) < 0 ∨ 1 < (3 / 4 : ℚ)) := by norm_num
  have hnle : ((3 / 4 : ℚ) * d.size).floor.toNat ≤ d.size := floor_three_quarters_le d.size
  refine ⟨pushRows ⟨d.keys, d.is_num, fun _ => [], d.label, 0, fun _ => none⟩
      (((List.range d.size).take (((3 / 4 : ℚ) * d.size).floor.toNat)).map d.iterrow),
    pushRows ⟨d.keys, d.is_num, fun _ => [], d.label, 0, fun _ => none⟩
      (((List.range d.size).drop (((3 / 4 : ℚ) * d.size).floor.toNat)).map d.iterrow),
    ?_, ?_, ?_, ?_, ?_, ?_, ?_, ?_, ?_, ?_⟩
  · simp only [Dataset.split]
    rw [if_neg hguard]
  · rw [pushRows_size]
    simp [Nat.min_eq_left hnle]
  · rw [pushRows_size]
    simp
  · rw [pushRows_keys]
  · rw [pushRows_keys]
  · rw [pushRows_is_num]
  · rw [pushRows_is_num]
  · rw [pushRows_label]
  · rw [pushRows_label]
  · intro k hk
    obtain ⟨j, hj, hkj⟩ := List.mem_iff_getElem.mp hk
    have hkd : d.keys.getD j "" = k := by
      rw [List.getD_eq_getElem _ _ hj, hkj]
    have hclen : (d.cols (d.keys.getD j "")).length = d.size := by
      rw [hkd]; exact hcols k hk
    have hbase_keys : (⟨d.keys, d.is_num, fun _ => [], d.label, 0, fun _ => none⟩ :
        Dataset).keys = d.keys := rfl
    have htr : (pushRows (⟨d.keys, d.is_num, fun _ => [], d.label, 0, fun _ => none⟩ :
        Dataset) (((List.range d.size).take
          (((3 / 4 : ℚ) * d.size).floor.toNat)).map d.iterrow)).cols k =
        (d.cols k).take (((3 / 4 : ℚ) * d.size).floor.toNat) := by
      have h1 := pushRows_col
        (((List.range d.size).take (((3 / 4 : ℚ) * d.size).floor.toNat)).map d.iterrow)
        ⟨d.keys, d.is_num, fun _ => [], d.label, 0, fun _ => none⟩ j
        (by rw [hbase_keys]; exact hnd) (by rw [hbase_keys]; exact hj)
      rw [hbase_keys] at h1
      rw [← hkd, h1, map_iterrow_getD d j hj,
        map_getD_range_take (d.cols (d.keys.getD j "")) d.size _ hclen hnle]
      show [] ++ _ = _
      rw [List.nil_append]
    have hte : (pushRows (⟨d.keys, d.is_num, fun _ => [], d.label, 0, fun _ => none⟩ :
        Dataset) (((List.range d.size).drop
          (((3 / 4 : ℚ) * d.size).floor.toNat)).map d.iterrow)).cols k =
        (d.cols k).drop (((3 / 4 : ℚ) * d.size).floor.toNat) := by
      have h1 := pushRows_col
        (((List.range d.size).drop (((3 / 4 : ℚ) * d.size).floor.toNat)).map d.iterrow)
        ⟨d.keys, d.is_num, fun _ => [], d.label, 0, fun _ => none⟩ j
        (by rw [hbase_keys]; exact hnd) (by rw [hbase_keys]; exact hj)
      rw [hbase_keys] at h1
      rw [← hkd, h1, map_iterrow_getD d j hj,
        map_getD_range_drop (d.cols (d.keys.getD j "")) d.size _ hclen]
      show [] ++ _ = _
      rw [List.nil_append]
    refine ⟨htr, hte, ?_⟩
    rw [htr, hte, List.take_append_drop]

/-- A four-row table used as concrete input below. -/
def splitTable : Dataset where
  keys := ["x", "lab"]
  is_num := [true, false]
  cols := fun k =>
    if k = "x" then [.num 1, .num 2, .num 3, .num 4]
    else if k = "lab" then [.str "A", .str "B", .str "A", .str "B"] else []
  label := "lab"
  size := 4
  local_parms := fun _ => none

/-- Witness for C8 at the four-row table. -/
theorem c8_witness :
    splitTable.keys.Nodup ∧
    (∀ k ∈ splitTable.keys, (splitTable.cols k).length = splitTable.size) ∧
    (∃ tr te : Dataset, splitTable.split (3 / 4) = .ok (tr, te) ∧
      tr.size = ((3 / 4 : ℚ) * splitTable.size).floor.toNat ∧
      te.size = splitTable.size - ((3 / 4 : ℚ) * splitTable.size).floor.toNat ∧
      tr.keys = splitTable.keys ∧ te.keys = splitTable.keys ∧
      tr.is_num = splitTable.is_num ∧ te.is_num = splitTable.is_num ∧
      tr.label = splitTable.label ∧ te.label = splitTable.label ∧
      ∀ k ∈ splitTable.keys,
        tr.cols k = (splitTable.cols k).take (((3 / 4 : ℚ) * splitTable.size).floor.toNat) ∧
        te.cols k = (splitTable.cols k).drop (((3 / 4 : ℚ) * splitTable.size).floor.toNat) ∧
        tr.cols k ++ te.cols k = splitTable.cols k) :=
  ⟨by decide, by decide, c8_split_three_quarters splitTable (by decide) (by decide)⟩

/-- On a two-entry weights map, the selection of predict returns the
SECOND entry whenever the first entry's weight exceeds it: the
comparison handed to max_element is inverted, so the running candidate
moves to the smaller weight. -/
theorem selectLabel_pair (k1 k2 : DataType) (w1 w2 : ℝ) (h : w2 < w1) :
    selectLabel [(k1, w1), (k2, w2)] = k2 := by
  show (List.foldl (fun best x => if best.2 > x.2 then x else best)
    (k1, w1) [(k2, w2)]).1 = k2
  rw [List.foldl_cons, List.foldl_nil]
  show (if w1 > w2 then (k2, w2) else (k1, w1)).1 = k2
  rw [if_pos h]

/-- C2: on two neighbors — one at distance 0 labelled "A", one at
distance 1 labelled "B" — predict computes the correctly normalized
weights (the "A" weight strictly larger) yet returns "B": the
comparator passed to max_element makes it pick the label of MINIMAL
accumulated weight, not the maximal one the claim states. -/
theorem c2_predict_returns_min_weight_label :
    predictCore numTable [((0 : ℚ), (0 : Nat)), ((1 : ℚ), (1 : Nat))] = .str "B" := by
  have hs : (0 : ℝ) < sumWeights [((0 : ℚ), (0 : Nat)), ((1 : ℚ), (1 : Nat))] := by
    unfold sumWeights
    simp only [List.map_cons, List.map_nil, List.sum_cons, List.sum_nil]
    positivity
  have hstep : predictCore numTable [((0 : ℚ), (0 : Nat)), ((1 : ℚ), (1 : Nat))] =
      selectLabel
        [(.str "A", Real.exp (-((0 : ℚ) : ℝ)) /
            sumWeights [((0 : ℚ), (0 : Nat)), ((1 : ℚ), (1 : Nat))]),
         (.str "B", Real.exp (-((1 : ℚ) : ℝ)) /
            sumWeights [((0 : ℚ), (0 : Nat)), ((1 : ℚ), (1 : Nat))])] := rfl
  rw [hstep]
  apply selectLabel_pair
  rw [div_eq_mul_inv, div_eq_mul_inv]
  apply mul_lt_mul_of_pos_right _ (inv_pos.mpr hs)
  exact Real.exp_lt_exp.mpr (by push_cast; norm_num)

end Knn
